import Mathlib

/-!
Verification of the secure-media-library processing service
(`src/python/process_files.py`) against its natural-language specification.

The development shallowly embeds the parts of the program the claims are
about:

* byte strings are `List Nat` (each entry a byte value `< 256` where that
  matters); the AES-128 block transform is an abstract parameter
  `E : List Nat → List Nat` on 16-byte blocks, with its inverse `D` supplied
  as a hypothesis where decryption is discussed (the program calls into the
  `cryptography` library for the primitive itself);
* the PKCS#7 padding, CBC chaining, and the `IV || ciphertext` file layout
  are transcribed from `MediaProcessor.encrypt_file`;
* the processing-queue rows and the SQL statements of `DatabaseManager` are
  transcribed as pure record updates;
* the filesystem is a partial map `String → Option (List Nat)`;
* the cooperative asyncio scheduling of `main` is an explicit round-robin
  interleaving of task bodies with explicit yield points.
-/

namespace SecureMedia

/-! ## Bytes, PKCS#7 padding, CBC mode (from `MediaProcessor.encrypt_file`) -/

/-- Source `pad_len = 16 - (len(plaintext) % 16)` from `encrypt_file`. -/
def pkcs7PadLen (n : Nat) : Nat := 16 - n % 16

/-- Source `plaintext += bytes([pad_len]) * pad_len` from `encrypt_file`. -/
def pkcs7Pad (pt : List Nat) : List Nat :=
  pt ++ List.replicate (pkcs7PadLen pt.length) (pkcs7PadLen pt.length)

/-- Stripping PKCS#7 padding: read the final byte and drop that many bytes
(the downstream decryption step the specification's round-trip refers to). -/
def pkcs7Strip (l : List Nat) : List Nat :=
  l.take (l.length - l.getLastD 0)

/-- Split a byte string into consecutive 16-byte blocks (the block
granularity at which CBC operates). -/
def toBlocks (l : List Nat) : List (List Nat) :=
  if l = [] then [] else l.take 16 :: toBlocks (l.drop 16)
termination_by l.length
decreasing_by
  rename_i h
  have hl : 0 < l.length := List.length_pos.mpr h
  simp only [List.length_drop]
  omega

/-- Bytewise XOR of two equal-length blocks. -/
def xorB (a b : List Nat) : List Nat := List.zipWith (· ^^^ ·) a b

/-- CBC encryption over a block list: `c_i = E (p_i XOR c_{i-1})`, `c_0 = IV`
(what `modes.CBC` computes in `encrypt_file`). -/
def cbcEnc (E : List Nat → List Nat) (iv : List Nat) : List (List Nat) → List (List Nat)
  | [] => []
  | p :: ps =>
    let c := E (xorB p iv)
    c :: cbcEnc E c ps

/-- CBC decryption over a block list: `p_i = D c_i XOR c_{i-1}`. -/
def cbcDec (D : List Nat → List Nat) (iv : List Nat) : List (List Nat) → List (List Nat)
  | [] => []
  | c :: cs => xorB (D c) iv :: cbcDec D c cs

/-- The byte string `encrypt_file` writes on its normal path:
`IV || AES-128-CBC(PKCS#7-pad(plaintext))`. -/
def encryptedFileBytes (E : List Nat → List Nat) (iv : List Nat) (pt : List Nat) : List Nat :=
  iv ++ (cbcEnc E iv (toBlocks (pkcs7Pad pt))).flatten

/-- Reading an encrypted artifact back: split off the 16-byte IV, CBC-decrypt
the remainder, strip the PKCS#7 padding. -/
def decryptFileBytes (D : List Nat → List Nat) (file : List Nat) : List Nat :=
  pkcs7Strip ((cbcDec D (file.take 16) (toBlocks (file.drop 16))).flatten)

/-! ### Padding and block lemmas -/

theorem pkcs7PadLen_pos (n : Nat) : 1 ≤ pkcs7PadLen n := by
  unfold pkcs7PadLen; omega

theorem pkcs7PadLen_le (n : Nat) : pkcs7PadLen n ≤ 16 := by
  unfold pkcs7PadLen; omega

theorem pkcs7Pad_length (pt : List Nat) :
    (pkcs7Pad pt).length = pt.length + pkcs7PadLen pt.length := by
  simp [pkcs7Pad]

theorem pkcs7Pad_length_mod (pt : List Nat) : (pkcs7Pad pt).length % 16 = 0 := by
  rw [pkcs7Pad_length]
  unfold pkcs7PadLen
  omega

theorem pkcs7Strip_pkcs7Pad (pt : List Nat) : pkcs7Strip (pkcs7Pad pt) = pt := by
  obtain ⟨m, hm⟩ : ∃ m, pkcs7PadLen pt.length = m + 1 :=
    ⟨pkcs7PadLen pt.length - 1, by have := pkcs7PadLen_pos pt.length; omega⟩
  unfold pkcs7Strip pkcs7Pad
  rw [hm, List.replicate_succ', ← List.append_assoc, List.getLastD_concat]
  have hlen : (pt ++ List.replicate m (m + 1) ++ [m + 1]).length = pt.length + m + 1 := by
    simp [Nat.add_assoc]
  rw [hlen]
  have h2 : pt.length + m + 1 - (m + 1) = pt.length := by omega
  rw [h2, List.take_append_of_le_length (by simp),
    List.take_append_of_le_length (by simp), List.take_length]

theorem toBlocks_nil : toBlocks [] = [] := by
  unfold toBlocks; simp

theorem toBlocks_cons (l : List Nat) (h : l ≠ []) :
    toBlocks l = l.take 16 :: toBlocks (l.drop 16) := by
  conv_lhs => unfold toBlocks
  simp [h]

theorem toBlocks_flatten (l : List Nat) : (toBlocks l).flatten = l := by
  have H : ∀ n (l : List Nat), l.length ≤ n → (toBlocks l).flatten = l := by
    intro n
    induction n with
    | zero =>
      intro l hl
      have : l = [] := List.eq_nil_of_length_eq_zero (by omega)
      subst this; simp [toBlocks_nil]
    | succ n ih =>
      intro l hl
      by_cases h : l = []
      · subst h; simp [toBlocks_nil]
      · rw [toBlocks_cons l h]
        have hpos : 0 < l.length := List.length_pos.mpr h
        simp only [List.flatten_cons]
        rw [ih (l.drop 16) (by simp only [List.length_drop]; omega), List.take_append_drop]
  exact H l.length l le_rfl

theorem toBlocks_block_length (l : List Nat) (hm : l.length % 16 = 0) :
    ∀ b ∈ toBlocks l, b.length = 16 := by
  have H : ∀ n (l : List Nat), l.length ≤ n → l.length % 16 = 0 →
      ∀ b ∈ toBlocks l, b.length = 16 := by
    intro n
    induction n with
    | zero =>
      intro l hl _ b hb
      have : l = [] := List.eq_nil_of_length_eq_zero (by omega)
      subst this; simp [toBlocks_nil] at hb
    | succ n ih =>
      intro l hl hmod b hb
      by_cases h : l = []
      · subst h; simp [toBlocks_nil] at hb
      · rw [toBlocks_cons l h] at hb
        have hpos : 0 < l.length := List.length_pos.mpr h
        have h16 : 16 ≤ l.length := by omega
        simp only [List.mem_cons] at hb
        rcases hb with hb | hb
        · subst hb; simp [List.length_take]; omega
        · exact ih (l.drop 16) (by simp only [List.length_drop]; omega)
            (by simp only [List.length_drop]; omega) b hb
  exact H l.length l le_rfl hm

theorem toBlocks_of_flatten (bs : List (List Nat)) (h : ∀ b ∈ bs, b.length = 16) :
    toBlocks bs.flatten = bs := by
  induction bs with
  | nil => simp [toBlocks_nil]
  | cons b rest ih =>
    have hb : b.length = 16 := h b (by simp)
    have hne : (b :: rest).flatten ≠ [] := by
      simp only [List.flatten_cons]
      intro hc
      have := congrArg List.length hc
      simp [hb] at this
    rw [List.flatten_cons] at hne ⊢
    rw [toBlocks_cons _ hne]
    congr 1
    · rw [List.take_append_of_le_length (by omega), List.take_of_length_le (by omega)]
    · rw [List.drop_append_of_le_length (by omega)]
      have : b.drop 16 = [] := by
        apply List.drop_eq_nil_of_le; omega
      rw [this, List.nil_append]
      exact ih (fun x hx => h x (by simp [hx]))

theorem xorB_length (a b : List Nat) : (xorB a b).length = min a.length b.length := by
  simp [xorB]

theorem xorB_cancel (a b : List Nat) (h : a.length = b.length) :
    xorB (xorB a b) b = a := by
  induction a generalizing b with
  | nil => simp [xorB]
  | cons x xs ih =>
    cases b with
    | nil => simp at h
    | cons y ys =>
      simp only [List.length_cons] at h
      simp only [xorB, List.zipWith_cons_cons] at *
      have hx : x ^^^ y ^^^ y = x := by
        rw [Nat.xor_assoc, Nat.xor_self, Nat.xor_zero]
      rw [hx, ih ys (by omega)]

theorem cbcEnc_length_blocks (E : List Nat → List Nat)
    (hE : ∀ b, b.length = 16 → (E b).length = 16) :
    ∀ (ps : List (List Nat)) (iv : List Nat), iv.length = 16 →
      (∀ p ∈ ps, p.length = 16) → ∀ c ∈ cbcEnc E iv ps, c.length = 16 := by
  intro ps
  induction ps with
  | nil => intro iv _ _ c hc; simp [cbcEnc] at hc
  | cons p ps ih =>
    intro iv hiv hps c hc
    simp only [cbcEnc, List.mem_cons] at hc
    have hp : p.length = 16 := hps p (by simp)
    have hxl : (xorB p iv).length = 16 := by rw [xorB_length, hp, hiv]; simp
    have hcl : (E (xorB p iv)).length = 16 := hE _ hxl
    rcases hc with hc | hc
    · subst hc; exact hcl
    · exact ih (E (xorB p iv)) hcl (fun q hq => hps q (by simp [hq])) c hc

theorem cbcDec_cbcEnc (E D : List Nat → List Nat)
    (hED : ∀ b, D (E b) = b) (hE : ∀ b, b.length = 16 → (E b).length = 16) :
    ∀ (ps : List (List Nat)) (iv : List Nat), iv.length = 16 →
      (∀ p ∈ ps, p.length = 16) → cbcDec D iv (cbcEnc E iv ps) = ps := by
  intro ps
  induction ps with
  | nil => intro iv _ _; simp [cbcEnc, cbcDec]
  | cons p ps ih =>
    intro iv hiv hps
    have hp : p.length = 16 := hps p (by simp)
    simp only [cbcEnc, cbcDec]
    have hxl : (xorB p iv).length = 16 := by rw [xorB_length, hp, hiv]; simp
    have hhead : xorB (D (E (xorB p iv))) iv = p := by
      rw [hED]
      exact xorB_cancel p iv (by omega)
    rw [hhead]
    congr 1
    exact ih (E (xorB p iv)) (hE _ hxl) (fun q hq => hps q (by simp [hq]))

theorem encryptedFileBytes_take (E : List Nat → List Nat) (iv pt : List Nat)
    (hiv : iv.length = 16) : (encryptedFileBytes E iv pt).take 16 = iv := by
  unfold encryptedFileBytes
  rw [List.take_append_of_le_length (by omega), List.take_of_length_le (by omega)]

theorem encryptedFileBytes_drop (E : List Nat → List Nat) (iv pt : List Nat)
    (hiv : iv.length = 16) :
    (encryptedFileBytes E iv pt).drop 16 = (cbcEnc E iv (toBlocks (pkcs7Pad pt))).flatten := by
  unfold encryptedFileBytes
  rw [List.drop_append_of_le_length (by omega)]
  have : iv.drop 16 = [] := List.drop_eq_nil_of_le (by omega)
  rw [this, List.nil_append]

/-- C2. For every plaintext byte string, `encrypt_file` pads it with PKCS#7 to
a 16-byte boundary with pad length in `[1, 16]`, CBC-encrypts the padded data
block by block under the given 16-byte IV, and lays the output out as
`IV || ciphertext`; splitting off the stored IV, CBC-decrypting with the
inverse block transform, and stripping the PKCS#7 padding recovers exactly the
original plaintext, for every plaintext length. -/
theorem encrypt_file_roundtrip (E D : List Nat → List Nat) (iv pt : List Nat)
    (hED : ∀ b, D (E b) = b)
    (hE : ∀ b, b.length = 16 → (E b).length = 16)
    (hiv : iv.length = 16) :
    1 ≤ pkcs7PadLen pt.length ∧ pkcs7PadLen pt.length ≤ 16 ∧
    (encryptedFileBytes E iv pt).take 16 = iv ∧
    decryptFileBytes D (encryptedFileBytes E iv pt) = pt := by
  refine ⟨pkcs7PadLen_pos _, pkcs7PadLen_le _, encryptedFileBytes_take E iv pt hiv, ?_⟩
  unfold decryptFileBytes
  rw [encryptedFileBytes_take E iv pt hiv, encryptedFileBytes_drop E iv pt hiv]
  have hblocks : ∀ p ∈ toBlocks (pkcs7Pad pt), p.length = 16 :=
    toBlocks_block_length _ (pkcs7Pad_length_mod pt)
  have hct : ∀ c ∈ cbcEnc E iv (toBlocks (pkcs7Pad pt)), c.length = 16 :=
    cbcEnc_length_blocks E hE _ iv hiv hblocks
  rw [toBlocks_of_flatten _ hct, cbcDec_cbcEnc E D hED hE _ iv hiv hblocks,
    toBlocks_flatten, pkcs7Strip_pkcs7Pad]

/-- C2 witness: the round-trip theorem applied to the identity block
transform, the zero IV, and a concrete 5-byte plaintext. -/
theorem encrypt_file_roundtrip_witness :
    (∀ b : List Nat, id (id b) = b) ∧
    (∀ b : List Nat, b.length = 16 → (id b).length = 16) ∧
    (List.replicate 16 0).length = 16 ∧
    decryptFileBytes id (encryptedFileBytes id (List.replicate 16 0) [10, 20, 30, 40, 50])
      = [10, 20, 30, 40, 50] :=
  ⟨fun _ => rfl, fun _ h => h, by simp,
    (encrypt_file_roundtrip id id (List.replicate 16 0) [10, 20, 30, 40, 50]
      (fun _ => rfl) (fun _ h => h) (by simp)).2.2.2⟩

theorem encryptedFileBytes_length (E : List Nat → List Nat) (iv pt : List Nat)
    (hE : ∀ b, b.length = 16 → (E b).length = 16) (hiv : iv.length = 16) :
    (encryptedFileBytes E iv pt).length = 16 + pt.length + pkcs7PadLen pt.length := by
  unfold encryptedFileBytes
  have hblocks : ∀ p ∈ toBlocks (pkcs7Pad pt), p.length = 16 :=
    toBlocks_block_length _ (pkcs7Pad_length_mod pt)
  have hct : ∀ c ∈ cbcEnc E iv (toBlocks (pkcs7Pad pt)), c.length = 16 :=
    cbcEnc_length_blocks E hE _ iv hiv hblocks
  have hflat : (cbcEnc E iv (toBlocks (pkcs7Pad pt))).flatten.length
      = (pkcs7Pad pt).length := by
    have h1 := congrArg List.length (toBlocks_of_flatten _ hct)
    have h2 := congrArg List.length (toBlocks_flatten (pkcs7Pad pt))
    -- both flattens have blockwise length 16, and block counts agree
    have hcount : ∀ (bs : List (List Nat)), (∀ b ∈ bs, b.length = 16) →
        bs.flatten.length = 16 * bs.length := by
      intro bs hbs
      induction bs with
      | nil => simp
      | cons b rest ihb =>
        simp only [List.flatten_cons, List.length_append, List.length_cons]
        rw [hbs b (by simp), ihb (fun x hx => hbs x (by simp [hx]))]
        ring
    have hlenEnc : ∀ (EE : List Nat → List Nat) (ivv : List Nat) (ps : List (List Nat)),
        (cbcEnc EE ivv ps).length = ps.length := by
      intro EE ivv ps
      induction ps generalizing ivv with
      | nil => simp [cbcEnc]
      | cons p ps ihp => simp [cbcEnc, ihp]
    have hpad : (pkcs7Pad pt).length = 16 * (toBlocks (pkcs7Pad pt)).length := by
      conv_lhs => rw [← toBlocks_flatten (pkcs7Pad pt)]
      exact hcount _ (toBlocks_block_length _ (pkcs7Pad_length_mod pt))
    rw [hcount _ hct, hlenEnc]
    exact hpad.symm
  simp only [List.length_append, hflat, hiv, pkcs7Pad_length]
  omega

/-- C10. For every existing non-empty plaintext of `n ≥ 1` bytes, the normal
path of `encrypt_file` writes exactly `16 + n + (16 - n % 16)` bytes, a
multiple of 16 that is at least 32, so the `encrypted_size < 32` anomaly
branch cannot fire on this path. -/
theorem encrypt_file_size (E : List Nat → List Nat) (iv pt : List Nat)
    (hE : ∀ b, b.length = 16 → (E b).length = 16) (hiv : iv.length = 16)
    (hn : 1 ≤ pt.length) :
    (encryptedFileBytes E iv pt).length = 16 + pt.length + (16 - pt.length % 16) ∧
    (encryptedFileBytes E iv pt).length % 16 = 0 ∧
    32 ≤ (encryptedFileBytes E iv pt).length ∧
    ¬ (encryptedFileBytes E iv pt).length < 32 := by
  have h := encryptedFileBytes_length E iv pt hE hiv
  unfold pkcs7PadLen at h
  refine ⟨h, ?_, ?_, ?_⟩ <;> rw [h] <;> omega

/-- C10 witness: the size theorem applied to the identity block transform,
the zero IV, and a 1-byte plaintext (output: 32 bytes). -/
theorem encrypt_file_size_witness :
    (List.replicate 16 0).length = 16 ∧ 1 ≤ ([7] : List Nat).length ∧
    (encryptedFileBytes id (List.replicate 16 0) [7]).length = 16 + 1 + (16 - 1 % 16) :=
  ⟨by simp, by simp,
    (encrypt_file_size id (List.replicate 16 0) [7]
      (fun _ h => h) (by simp) (by simp)).1⟩

/-! ## Processing-queue rows and their operations (from `DatabaseManager`) -/

/-- The `processing_queue.status` values used by the program. -/
inductive JobStatus where
  | queued
  | processing
  | completed
  | failed
deriving DecidableEq, Repr, BEq

/-- A `processing_queue` row; timestamps are abstract instants (`Option Nat`,
`none` = SQL NULL). -/
structure QueueJob where
  status : JobStatus
  retry_count : Nat
  max_retries : Nat
  error_message : Option String
  started_at : Option Nat
  completed_at : Option Nat
deriving DecidableEq, Repr

/-- Source `DatabaseManager.add_to_processing_queue`: a fresh row is inserted with
status `queued` (other columns at their schema defaults). -/
def add_to_processing_queue (maxRetries : Nat) : QueueJob :=
  { status := .queued
    retry_count := 0
    max_retries := maxRetries
    error_message := none
    started_at := none
    completed_at := none }

/-- Source `DatabaseManager.update_queue_status`: sets `status` and `error_message`;
`started_at := NOW()` only when the new status is `processing`, and
`completed_at := NOW()` only when it is `completed` or `failed` (otherwise
both keep their prior values). -/
def update_queue_status (now : Nat) (j : QueueJob) (s : JobStatus)
    (err : Option String) : QueueJob :=
  { j with
    status := s
    error_message := err
    started_at := if s = .processing then some now else j.started_at
    completed_at := if s = .completed ∨ s = .failed then some now else j.completed_at }

/-- Source `DatabaseManager.increment_retry_count`: back to `queued` with
`retry_count + 1` and `error_message`, `started_at`, `completed_at` cleared. -/
def increment_retry_count (j : QueueJob) : QueueJob :=
  { j with
    status := .queued
    retry_count := j.retry_count + 1
    error_message := none
    started_at := none
    completed_at := none }

/-- Source `DatabaseManager.mark_job_as_processing`: sets `status := processing` and
`started_at := NOW()`; note that `completed_at` is left untouched. -/
def mark_job_as_processing (now : Nat) (j : QueueJob) : QueueJob :=
  { j with status := .processing, started_at := some now }

/-- Row filter of `DatabaseManager.get_failed_jobs_for_retry`:
`status = 'failed' AND retry_count < max_retries AND (completed_at IS NULL OR
completed_at < NOW() - INTERVAL '5 minutes')` (300 s). -/
def get_failed_jobs_for_retry_filter (now : Nat) (j : QueueJob) : Bool :=
  j.status == .failed && j.retry_count < j.max_retries &&
    (match j.completed_at with
     | none => true
     | some t => decide (t + 300 < now))

/-! ## The per-job pipeline (from `MediaProcessor.process_file` and
`process_queue_worker`) -/

/-- A `media_files` row (the fields the claims touch). -/
structure MediaAsset where
  id : String
  file_hash : String
deriving DecidableEq, Repr

/-- The state a single job's processing reads and writes: its queue row, the
intake directory contents, the `media_files` rows, and the artifact files
written under the assets root. -/
structure PipelineState where
  job : QueueJob
  intake : List String
  assets : List MediaAsset
  artifacts : List String
deriving DecidableEq, Repr

/-- Outcome of the transformation stage (`process_image` / `process_video`):
either it returns artifact paths, or it raises with an error message. -/
inductive TransformOutcome where
  | ok (arts : List String)
  | raiseErr (msg : String)
deriving DecidableEq, Repr

/-- Source `DatabaseManager.check_duplicate_by_hash`: first `media_files` row whose
`file_hash` matches (`LIMIT 1`). -/
def check_duplicate_by_hash (assets : List MediaAsset) (h : String) : Option MediaAsset :=
  assets.find? (fun a => a.file_hash == h)

/-- Model of `MediaProcessor.process_file` for a file that exists. Returns the new
state together with whether an exception escaped to the caller: the body is
one `try`/`except` whose handler marks the job `failed` and returns normally,
so the flag is `false` on every branch. The duplicate branch marks the job
`completed` with a note naming the prior asset id and deletes the intake
file before any transformation. -/
def process_file (now : Nat) (st : PipelineState) (fileName fileHash newId : String)
    (tr : TransformOutcome) : PipelineState × Bool :=
  let j1 := update_queue_status now st.job .processing none
  match check_duplicate_by_hash st.assets fileHash with
  | some dup =>
    ({ st with
        job := update_queue_status now j1 .completed
          (some ("Duplicate of existing file ID: " ++ dup.id))
        intake := st.intake.erase fileName }, false)
  | none =>
    match tr with
    | .ok arts =>
      ({ job := update_queue_status now j1 .completed none
         intake := st.intake.erase fileName
         assets := st.assets ++ [{ id := newId, file_hash := fileHash }]
         artifacts := st.artifacts ++ arts }, false)
    | .raiseErr e =>
      ({ st with job := update_queue_status now j1 .failed (some e) }, false)

/-- One job iteration of `process_queue_worker`: check the file still exists
(else mark `failed` "File not found"), `mark_job_as_processing`, run
`process_file`; the `except Exception` handler that calls
`increment_retry_count` fires only if `process_file` raised. -/
def worker_step (now : Nat) (st : PipelineState) (fileName fileHash newId : String)
    (tr : TransformOutcome) : PipelineState :=
  if fileName ∈ st.intake then
    let st1 := { st with job := mark_job_as_processing now st.job }
    let res := process_file now st1 fileName fileHash newId tr
    if res.2 ∧ st.job.retry_count + 1 < st.job.max_retries then
      { res.1 with job := increment_retry_count res.1.job }
    else
      res.1
  else
    { st with job := update_queue_status now st.job .failed (some "File not found") }

/-! ## C1: what happens to a job whose processing raises -/

/-- A freshly enqueued job over a one-file intake directory and an empty
catalog (`max_retries` at its default 3). -/
def cxState : PipelineState :=
  { job := add_to_processing_queue 3
    intake := ["f.jpg"]
    assets := []
    artifacts := [] }

/-- C1 counterexample. A fresh job (`retry_count = 0`, `max_retries = 3`)
whose transformation raises is left `failed` with `retry_count` still 0: it
is never reset to `queued` and its retry count is never incremented, even
though `retry_count + 1 < max_retries`, because `process_file` swallows the
error itself, so `process_queue_worker`'s `except` block that calls
`increment_retry_count` is not reached. -/
theorem worker_error_not_requeued_cx :
    (worker_step 7 cxState "f.jpg" "h0" "id1" (.raiseErr "boom")).job.status = .failed ∧
    (worker_step 7 cxState "f.jpg" "h0" "id1" (.raiseErr "boom")).job.retry_count = 0 ∧
    cxState.job.retry_count + 1 < cxState.job.max_retries ∧
    ¬ ((worker_step 7 cxState "f.jpg" "h0" "id1" (.raiseErr "boom")).job.status = .queued ∧
       (worker_step 7 cxState "f.jpg" "h0" "id1" (.raiseErr "boom")).job.retry_count
         = cxState.job.retry_count + 1) := by
  decide

/-- C1 amended. When a job's transformation raises a caught error, the job is
marked `failed` with the error string and `completed_at` set; the worker's
reset-to-`queued`/`increment_retry_count` branch is not executed (the
exception never escapes `process_file`), so `retry_count` is unchanged and
the job stays `failed`, to be re-picked later by the failed-jobs retry query
after its cool-down. -/
theorem worker_error_marks_failed (now : Nat) (st : PipelineState)
    (fileName fileHash newId e : String)
    (hfile : fileName ∈ st.intake)
    (hdup : check_duplicate_by_hash st.assets fileHash = none) :
    (worker_step now st fileName fileHash newId (.raiseErr e)).job.status = .failed ∧
    (worker_step now st fileName fileHash newId (.raiseErr e)).job.error_message = some e ∧
    (worker_step now st fileName fileHash newId (.raiseErr e)).job.completed_at = some now ∧
    (worker_step now st fileName fileHash newId (.raiseErr e)).job.retry_count
      = st.job.retry_count ∧
    (worker_step now st fileName fileHash newId (.raiseErr e)).job.status ≠ .queued := by
  simp [worker_step, process_file, hfile, hdup, update_queue_status,
    mark_job_as_processing]

/-- C1 witness: the amended theorem at the concrete fresh state. -/
theorem worker_error_marks_failed_witness :
    "f.jpg" ∈ cxState.intake ∧
    check_duplicate_by_hash cxState.assets "h0" = none ∧
    (worker_step 7 cxState "f.jpg" "h0" "id1" (.raiseErr "boom")).job.status = .failed ∧
    (worker_step 7 cxState "f.jpg" "h0" "id1" (.raiseErr "boom")).job.error_message
      = some "boom" :=
  ⟨by decide, by decide,
    (worker_error_marks_failed 7 cxState "f.jpg" "h0" "id1" "boom"
      (by decide) (by decide)).1,
    (worker_error_marks_failed 7 cxState "f.jpg" "h0" "id1" "boom"
      (by decide) (by decide)).2.1⟩

/-! ## C3: the status/timestamp invariant -/

/-- The invariant exactly as the specification states it: `queued` rows have
`started_at` NULL, `processing` rows have `started_at` set and `completed_at`
NULL, and terminal rows have `completed_at` set. -/
def statusTimestampInv (j : QueueJob) : Prop :=
  (j.status = .queued → j.started_at = none) ∧
  (j.status = .processing → j.started_at ≠ none ∧ j.completed_at = none) ∧
  ((j.status = .completed ∨ j.status = .failed) → j.completed_at ≠ none)

/-- The invariant the code actually maintains: the `completed_at IS NULL`
conjunct for `processing` rows is dropped, because
`mark_job_as_processing` does not clear `completed_at`. -/
def statusTimestampInvW (j : QueueJob) : Prop :=
  (j.status = .queued → j.started_at = none) ∧
  (j.status = .processing → j.started_at ≠ none) ∧
  ((j.status = .completed ∨ j.status = .failed) → j.completed_at ≠ none)

instance (j : QueueJob) : Decidable (statusTimestampInv j) := by
  unfold statusTimestampInv; infer_instance

instance (j : QueueJob) : Decidable (statusTimestampInvW j) := by
  unfold statusTimestampInvW; infer_instance

/-- The queue row of a job that was enqueued, marked processing, failed at
time 20, and — 5-minute cool-down over — picked up again for retry at
time 700 by `mark_job_as_processing`. -/
def retryPickupJob : QueueJob :=
  mark_job_as_processing 700
    (update_queue_status 20
      (update_queue_status 10 (add_to_processing_queue 3) .processing none)
      .failed (some "boom"))

/-- C3 counterexample. A previously failed job re-picked for retry is in
status `processing` with `completed_at` still set (from its earlier failure),
because `mark_job_as_processing` only touches `status` and `started_at`: the
claimed invariant fails on this reachable state, even though the retry query
does select the job and every state before the pickup satisfied it. -/
theorem queue_inv_cx :
    statusTimestampInv (add_to_processing_queue 3) ∧
    get_failed_jobs_for_retry_filter 700
      (update_queue_status 20
        (update_queue_status 10 (add_to_processing_queue 3) .processing none)
        .failed (some "boom")) = true ∧
    retryPickupJob.status = .processing ∧
    retryPickupJob.completed_at = some 20 ∧
    ¬ statusTimestampInv retryPickupJob := by
  decide

/-- C3 amended. The weakened invariant — `queued` rows have `started_at`
NULL, `processing` rows have `started_at` set, terminal rows have
`completed_at` set, with no `completed_at IS NULL` requirement on
`processing` rows — is preserved by every queue operation the program
performs: enqueue, `mark_job_as_processing` (including the retry pickup of a
failed row), `update_queue_status` with any status other than `queued` (the
only ones the program passes), and the retry reset `increment_retry_count`. -/
theorem queue_inv_preserved (now : Nat) (j : QueueJob) (s : JobStatus)
    (err : Option String) (hj : statusTimestampInvW j) (hs : s ≠ .queued) :
    statusTimestampInvW (add_to_processing_queue j.max_retries) ∧
    statusTimestampInvW (mark_job_as_processing now j) ∧
    statusTimestampInvW (update_queue_status now j s err) ∧
    statusTimestampInvW (increment_retry_count j) := by
  obtain ⟨h1, h2, h3⟩ := hj
  refine ⟨?_, ?_, ?_, ?_⟩
  · simp [statusTimestampInvW, add_to_processing_queue]
  · simp [statusTimestampInvW, mark_job_as_processing]
  · cases s with
    | queued => exact absurd rfl hs
    | processing => simp [statusTimestampInvW, update_queue_status]
    | completed => simp [statusTimestampInvW, update_queue_status]
    | failed => simp [statusTimestampInvW, update_queue_status]
  · simp [statusTimestampInvW, increment_retry_count]

/-- C3 witness: preservation applied to a fresh queued row being marked
completed at time 5. -/
theorem queue_inv_preserved_witness :
    statusTimestampInvW (add_to_processing_queue 3) ∧
    (JobStatus.completed ≠ JobStatus.queued) ∧
    statusTimestampInvW (update_queue_status 5 (add_to_processing_queue 3)
      .completed none) :=
  ⟨by decide, by decide,
    (queue_inv_preserved 5 (add_to_processing_queue 3) .completed none
      (by decide) (by decide)).2.2.1⟩

/-! ## C4: the duplicate-hash short-circuit -/

/-- C4. If the input's hash matches an existing `media_files` row, the
job is marked `completed` with a note referencing the prior asset's id, the
intake file is deleted, and processing returns before any transformation: the
catalog rows and the artifact set are unchanged, and the result does not even
depend on what the transformation stage would have produced. -/
theorem duplicate_short_circuit (now : Nat) (st : PipelineState)
    (fileName fileHash newId : String) (tr : TransformOutcome) (dup : MediaAsset)
    (hdup : check_duplicate_by_hash st.assets fileHash = some dup) :
    ((process_file now st fileName fileHash newId tr).1.job.status = .completed ∧
     (process_file now st fileName fileHash newId tr).1.job.error_message
       = some ("Duplicate of existing file ID: " ++ dup.id)) ∧
    (process_file now st fileName fileHash newId tr).1.intake = st.intake.erase fileName ∧
    (process_file now st fileName fileHash newId tr).1.assets = st.assets ∧
    (process_file now st fileName fileHash newId tr).1.artifacts = st.artifacts ∧
    (∀ tr2, process_file now st fileName fileHash newId tr
      = process_file now st fileName fileHash newId tr2) := by
  refine ⟨⟨?_, ?_⟩, ?_, ?_, ?_, ?_⟩ <;>
    simp [process_file, hdup, update_queue_status]

/-- C4 witness: the short-circuit at a concrete state whose catalog already
holds the hash. -/
def dupState : PipelineState :=
  { job := add_to_processing_queue 3
    intake := ["g.jpg"]
    assets := [{ id := "prior1", file_hash := "h0" }]
    artifacts := ["old.enc"] }

/-- C4 witness: the theorem applied to `dupState`. -/
theorem duplicate_short_circuit_witness :
    check_duplicate_by_hash dupState.assets "h0" = some { id := "prior1", file_hash := "h0" } ∧
    ((process_file 9 dupState "g.jpg" "h0" "idX" (.ok ["new.enc"])).1.job.status
       = .completed ∧
     (process_file 9 dupState "g.jpg" "h0" "idX" (.ok ["new.enc"])).1.job.error_message
       = some ("Duplicate of existing file ID: " ++ "prior1")) :=
  ⟨by decide,
    (duplicate_short_circuit 9 dupState "g.jpg" "h0" "idX" (.ok ["new.enc"])
      { id := "prior1", file_hash := "h0" } (by decide)).1⟩

/-! ## C5: `encrypt_file` on the filesystem, with the placeholder fallback -/

/-- The filesystem as a partial map from paths to byte contents. -/
def FS := String → Option (List Nat)

/-- Writing a file. -/
def fsSet (fs : FS) (p : String) (v : List Nat) : FS :=
  fun q => if q = p then some v else fs q

/-- Deleting a file (`unlink`). -/
def fsErase (fs : FS) (p : String) : FS :=
  fun q => if q = p then none else fs q

/-- The embedded canonical 1×1 black WebP (`placeholder_webp` in the
source, transcribed byte for byte). -/
def placeholder_webp : List Nat :=
  [0x52, 0x49, 0x46, 0x46, 0x24, 0x00, 0x00, 0x00, 0x57, 0x45, 0x42, 0x50,
   0x56, 0x50, 0x38, 0x20, 0x18, 0x00, 0x00, 0x00, 0x30, 0x01, 0x00, 0x9d,
   0x01, 0x2a, 0x01, 0x00, 0x01, 0x00, 0x01, 0x40, 0x25, 0xa4, 0x00, 0x03,
   0x70, 0x00, 0xfe, 0xfb, 0x94, 0x00, 0x00]

/-- The all-zero IV used for the placeholder artifact. -/
def zeroIV : List Nat := List.replicate 16 0

/-- Model of `MediaProcessor.encrypt_file` over the filesystem. `E` is the AES-128
block transform under the active key; `iv` the fresh random IV drawn for this
call; `raises` whether the encryption body raises. The output path is
`file_path.with_suffix(suffix + '.enc')`, i.e. the input path with `.enc`
appended. A missing input yields the placeholder (1×1 black WebP, padded and
encrypted with the all-zero IV) at the output path; an empty input is
unlinked and the code recurses on the sentinel path `"non-existent"`; a
raising encryption removes any partial output and recurses on the sentinel
likewise. The fuel bounds the recursion depth (the program nests at most one
recursive call when the sentinel path does not exist as a file). -/
def encrypt_file (fuel : Nat) (fs : FS) (path : String) (E : List Nat → List Nat)
    (iv : List Nat) (raises : Bool) : Option (String × FS) :=
  match fuel with
  | 0 => none
  | fuel + 1 =>
    let encPath := path ++ ".enc"
    match fs path with
    | none =>
      some (encPath, fsSet fs encPath (encryptedFileBytes E zeroIV placeholder_webp))
    | some content =>
      if content.length = 0 then
        encrypt_file fuel (fsErase fs path) "non-existent" E iv raises
      else if raises then
        encrypt_file fuel (fsErase fs encPath) "non-existent" E iv raises
      else
        fsErase (fsSet fs encPath (encryptedFileBytes E iv content)) path
          |> fun fs2 => some (encPath, fs2)

theorem append_enc_ne (s : String) : s ++ ".enc" ≠ s := by
  intro h
  have h2 := congrArg String.length h
  rw [String.length_append] at h2
  have h3 : (".enc" : String).length = 4 := rfl
  omega

/-- C5. With the sentinel path absent (as in the program's working
directories), every call to `encrypt_file` returns a path at which an
encrypted artifact now exists; and in each of the three degenerate cases —
input missing, input empty, encryption raises — that artifact is exactly the
canonical placeholder: the embedded 1×1 black WebP, PKCS#7-padded and
CBC-encrypted under the active key with the all-zero 16-byte IV, laid out as
`IV || ciphertext`. -/
theorem encrypt_file_total (fs : FS) (path : String) (E : List Nat → List Nat)
    (iv : List Nat) (raises : Bool)
    (hne : fs "non-existent" = none) :
    ∃ p fs2, encrypt_file 2 fs path E iv raises = some (p, fs2) ∧
      (fs2 p).isSome = true ∧
      ((fs path = none ∨ fs path = some [] ∨ raises = true) →
        fs2 p = some (encryptedFileBytes E zeroIV placeholder_webp)) := by
  cases hp : fs path with
  | none =>
    refine ⟨path ++ ".enc",
      fsSet fs (path ++ ".enc") (encryptedFileBytes E zeroIV placeholder_webp),
      ?_, ?_, ?_⟩
    · simp [encrypt_file, hp]
    · simp [fsSet]
    · intro _; simp [fsSet]
  | some content =>
    by_cases hc : content.length = 0
    · have hrec : (fsErase fs path) "non-existent" = none := by
        unfold fsErase
        by_cases hq : ("non-existent" : String) = path <;> simp [hq, hne]
      refine ⟨"non-existent" ++ ".enc",
        fsSet (fsErase fs path) ("non-existent" ++ ".enc")
          (encryptedFileBytes E zeroIV placeholder_webp),
        ?_, ?_, ?_⟩
      · simp [encrypt_file, hp, hc, hrec]
      · simp [fsSet]
      · intro _; simp [fsSet]
    · by_cases hr : raises
      · have hrec : (fsErase fs (path ++ ".enc")) "non-existent" = none := by
          unfold fsErase
          by_cases hq : ("non-existent" : String) = path ++ ".enc" <;> simp [hq, hne]
        refine ⟨"non-existent" ++ ".enc",
          fsSet (fsErase fs (path ++ ".enc")) ("non-existent" ++ ".enc")
            (encryptedFileBytes E zeroIV placeholder_webp),
          ?_, ?_, ?_⟩
        · simp [encrypt_file, hp, hc, hr, hrec]
        · simp [fsSet]
        · intro _; simp [fsSet]
      · refine ⟨path ++ ".enc",
          fsErase (fsSet fs (path ++ ".enc") (encryptedFileBytes E iv content)) path,
          ?_, ?_, ?_⟩
        · simp [encrypt_file, hp, hc, hr]
        · simp [fsSet, fsErase, append_enc_ne]
        · intro habs
          rcases habs with h | h | h
          · simp at h
          · injection h with h
            exact absurd (congrArg List.length h) (by simpa using hc)
          · exact absurd h hr

/-- C5 witness: a one-file filesystem whose file is empty; the call produces
the placeholder artifact. -/
def emptyFS : FS :=
  fun q => if q = "a.webp" then some [] else none

/-- C5 witness: the theorem applied to `emptyFS`. -/
theorem encrypt_file_total_witness :
    emptyFS "non-existent" = none ∧
    ∃ p fs2, encrypt_file 2 emptyFS "a.webp" id zeroIV false = some (p, fs2) ∧
      (fs2 p).isSome = true ∧
      ((emptyFS "a.webp" = none ∨ emptyFS "a.webp" = some [] ∨ false = true) →
        fs2 p = some (encryptedFileBytes id zeroIV placeholder_webp)) :=
  ⟨by simp [emptyFS],
    encrypt_file_total emptyFS "a.webp" id zeroIV false (by simp [emptyFS])⟩

/-! ## C7: key acquisition (from `DatabaseManager.get_or_create_encryption_key`
and `_write_binary_key_file`) -/

/-- Lower-case hex digit for a nibble (`secrets.token_hex` emits lower-case). -/
def hexDigit (n : Nat) : Char :=
  if n < 10 then Char.ofNat (48 + n) else Char.ofNat (87 + n)

/-- Hex-encode a byte string (two digits per byte, high nibble first). -/
def toHexChars (bs : List Nat) : List Char :=
  bs.flatMap fun b => [hexDigit (b / 16), hexDigit (b % 16)]

/-- Value of a hex digit (`bytes.fromhex` accepts both cases). -/
def hexVal (c : Char) : Nat :=
  if 48 ≤ c.toNat ∧ c.toNat ≤ 57 then c.toNat - 48
  else if 97 ≤ c.toNat ∧ c.toNat ≤ 102 then c.toNat - 87
  else if 65 ≤ c.toNat ∧ c.toNat ≤ 70 then c.toNat - 55
  else 0

/-- Hex-decode (`bytes.fromhex`): consume two digits per byte. -/
def fromHexChars : List Char → List Nat
  | c1 :: c2 :: rest => (16 * hexVal c1 + hexVal c2) :: fromHexChars rest
  | _ => []

theorem hexVal_hexDigit (n : Nat) (h : n < 16) : hexVal (hexDigit n) = n := by
  interval_cases n <;> decide

theorem fromHexChars_toHexChars (bs : List Nat) (h : ∀ b ∈ bs, b < 256) :
    fromHexChars (toHexChars bs) = bs := by
  induction bs with
  | nil => simp [toHexChars, fromHexChars]
  | cons b rest ih =>
    have hb : b < 256 := h b (by simp)
    simp only [toHexChars, List.flatMap_cons, List.cons_append, List.nil_append]
    rw [show (toHexChars rest = rest.flatMap fun b =>
      [hexDigit (b / 16), hexDigit (b % 16)]) from rfl] at ih
    simp only [fromHexChars]
    rw [hexVal_hexDigit (b / 16) (by omega), hexVal_hexDigit (b % 16) (by omega),
      Nat.div_add_mod b 16]
    rw [ih (fun x hx => h x (by simp [hx]))]

/-- An `encryption_keys` row. -/
structure KeyRow where
  id : Nat
  key_value : String
  iv_value : String
  is_active : Bool
deriving DecidableEq, Repr

/-- The `SELECT ... WHERE is_active = true LIMIT 1` of the key store. -/
def selectActiveKey (rows : List KeyRow) : Option KeyRow :=
  rows.find? (·.is_active)

/-- Environment of one `get_or_create_encryption_key` call: the current
`encryption_keys` rows, whether the `INSERT` raises, and the row (if any)
that a concurrent process has made visible by the time the retry `SELECT`
runs after a failed insert. -/
structure KeyEnv where
  rows : List KeyRow
  insertFails : Bool
  concurrent : Option KeyRow
deriving Repr

/-- Result of a successful acquisition: the key row handed to the caller, the
resulting `encryption_keys` rows, and the 16 raw bytes written to
`private/encryption.key` by `_write_binary_key_file`. -/
structure KeyResult where
  row : KeyRow
  rows : List KeyRow
  keyFile : List Nat
deriving Repr

/-- Source `DatabaseManager.get_or_create_encryption_key`: select the active row; if
none, generate a fresh hex-encoded 16-byte key and IV (`rndKey`, `rndIV` are
the RNG draws) and insert them with `is_active = true`, re-reading to confirm;
if the insert raises, retry the select (observing `concurrent`), and raise —
`none` — only if still no key is found. Every successful path ends with
`_write_binary_key_file`, which writes `bytes.fromhex(key_value)`. -/
def get_or_create_encryption_key (env : KeyEnv) (freshId : Nat)
    (rndKey rndIV : List Nat) : Option KeyResult :=
  match selectActiveKey env.rows with
  | some k => some { row := k, rows := env.rows, keyFile := fromHexChars k.key_value.data }
  | none =>
    if env.insertFails then
      match env.concurrent with
      | some k =>
        some { row := k, rows := env.rows ++ [k],
               keyFile := fromHexChars k.key_value.data }
      | none => none
    else
      let k : KeyRow :=
        { id := freshId, key_value := ⟨toHexChars rndKey⟩,
          iv_value := ⟨toHexChars rndIV⟩, is_active := true }
      some { row := k, rows := env.rows ++ [k], keyFile := fromHexChars k.key_value.data }

/-- Well-formedness of stored key material: the `key_value` column holds the
lower-case hex encoding of some 16-byte key (which is how every row this
program creates is written). -/
def keyRowWF (k : KeyRow) : Prop :=
  ∃ bs : List Nat, bs.length = 16 ∧ (∀ b ∈ bs, b < 256) ∧ k.key_value = ⟨toHexChars bs⟩

/-- C7. Key acquisition fails (raises) exactly when there is no active row,
the insert raises, and the retry select still finds nothing. On every
successful acquisition the returned row is among the resulting rows, the raw
key file holds exactly 16 bytes whose hex encoding equals the row's
`key_value`, and on the fresh-creation path the inserted row has
`is_active = true`, carries the hex encoding of the 16 RNG bytes, and is
found again by the confirmation re-read. -/
theorem get_or_create_encryption_key_spec (env : KeyEnv) (freshId : Nat)
    (rndKey rndIV : List Nat)
    (hk : rndKey.length = 16) (hkb : ∀ b ∈ rndKey, b < 256)
    (hwf : ∀ k ∈ env.rows, keyRowWF k)
    (hcwf : ∀ k, env.concurrent = some k → keyRowWF k) :
    (get_or_create_encryption_key env freshId rndKey rndIV = none ↔
      (selectActiveKey env.rows = none ∧ env.insertFails = true ∧
        env.concurrent = none)) ∧
    (∀ r, get_or_create_encryption_key env freshId rndKey rndIV = some r →
      r.row ∈ r.rows ∧ r.keyFile.length = 16 ∧
      (⟨toHexChars r.keyFile⟩ : String) = r.row.key_value ∧
      (selectActiveKey env.rows = none → env.insertFails = false →
        r.row.is_active = true ∧ r.row.key_value = ⟨toHexChars rndKey⟩ ∧
        selectActiveKey r.rows = some r.row)) := by
  have keyfile_of_wf : ∀ k : KeyRow, keyRowWF k →
      (fromHexChars k.key_value.data).length = 16 ∧
      (⟨toHexChars (fromHexChars k.key_value.data)⟩ : String) = k.key_value := by
    intro k hkwf
    obtain ⟨bs, hlen, hbs, hval⟩ := hkwf
    have hdata : k.key_value.data = toHexChars bs := by rw [hval]
    rw [hdata, fromHexChars_toHexChars bs hbs]
    exact ⟨hlen, hval.symm⟩
  constructor
  · unfold get_or_create_encryption_key
    cases hsel : selectActiveKey env.rows with
    | some k => simp
    | none =>
      cases hif : env.insertFails with
      | true =>
        cases hcon : env.concurrent with
        | some k => simp [hif, hcon]
        | none => simp [hif, hcon]
      | false => simp [hif]
  · intro r hr
    unfold get_or_create_encryption_key at hr
    cases hsel : selectActiveKey env.rows with
    | some k =>
      rw [hsel] at hr
      injection hr with hr
      subst hr
      have hkmem : k ∈ env.rows := List.mem_of_find?_eq_some hsel
      have hW := keyfile_of_wf k (hwf k hkmem)
      exact ⟨hkmem, hW.1, hW.2, fun habs _ => absurd habs (by simp)⟩
    | none =>
      rw [hsel] at hr
      cases hif : env.insertFails with
      | true =>
        rw [hif] at hr
        simp only [if_true] at hr
        cases hcon : env.concurrent with
        | some k =>
          rw [hcon] at hr
          injection hr with hr
          subst hr
          have hW := keyfile_of_wf k (hcwf k hcon)
          exact ⟨by simp, hW.1, hW.2, fun _ habs => by cases habs⟩
        | none => rw [hcon] at hr; cases hr
      | false =>
        rw [hif] at hr
        simp only [if_false, Bool.false_eq_true] at hr
        injection hr with hr
        subst hr
        have hWr : keyRowWF
            { id := freshId, key_value := ⟨toHexChars rndKey⟩,
              iv_value := ⟨toHexChars rndIV⟩, is_active := true } :=
          ⟨rndKey, hk, hkb, rfl⟩
        have hW := keyfile_of_wf _ hWr
        refine ⟨by simp, hW.1, hW.2, fun _ _ => ⟨rfl, rfl, ?_⟩⟩
        unfold selectActiveKey at hsel ⊢
        rw [List.find?_append, hsel]
        simp


/-- C7 witness: starting with no `encryption_keys` rows and a healthy insert,
acquisition succeeds; the no-key branch of the iff is exercised. -/
theorem get_or_create_encryption_key_spec_witness :
    (List.replicate 16 (0 : Nat)).length = 16 ∧
    (get_or_create_encryption_key ⟨[], false, none⟩ 1
        (List.replicate 16 0) (List.replicate 16 0) = none ↔
      (selectActiveKey (KeyEnv.mk [] false none).rows = none ∧
        (KeyEnv.mk [] false none).insertFails = true ∧
        (KeyEnv.mk [] false none).concurrent = none)) :=
  ⟨by simp,
    (get_or_create_encryption_key_spec ⟨[], false, none⟩ 1
      (List.replicate 16 0) (List.replicate 16 0)
      (by simp) (by simp) (by simp) (by simp)).1⟩

/-! ## C8: image downscaling and thumbnail dimensions (from
`MediaProcessor.process_image` and `generate_image_thumbnail`) -/

/-- Function `round_aspect` from PIL's `Image.thumbnail`: whichever of floor/ceil
minimizes the key (floor on ties, as Python's `min` keeps the first
argument), clamped to at least 1. Exact rational arithmetic stands in for
Python's float arithmetic. -/
def round_aspect (q : ℚ) (key : ℤ → ℚ) : ℤ :=
  max (if key ⌊q⌋ ≤ key ⌈q⌉ then ⌊q⌋ else ⌈q⌉) 1

/-- Target size computed by PIL's `Image.thumbnail((x, y), LANCZOS)`: no-op
unless the image exceeds the box, then fit the aspect ratio inside it. -/
def pil_thumbnail (w h x y : Nat) : ℤ × ℤ :=
  if x ≥ w ∧ y ≥ h then ((w : ℤ), (h : ℤ))
  else
    let aspect : ℚ := (w : ℚ) / (h : ℚ)
    if aspect ≤ (x : ℚ) / (y : ℚ) then
      (round_aspect ((y : ℚ) * aspect) (fun n => |aspect - (n : ℚ) / (y : ℚ)|), (y : ℤ))
    else
      ((x : ℤ), round_aspect ((x : ℚ) / aspect)
        (fun n => if n = 0 then 0 else |aspect - (x : ℚ) / (n : ℚ)|))

/-- The main-image dimensions `process_image` produces: `img.thumbnail((3840,
2160), LANCZOS)` is invoked iff `img.width > 3840 or img.height > 2160`. -/
def process_image_dims (w h : Nat) : ℤ × ℤ :=
  if 3840 < w ∨ 2160 < h then pil_thumbnail w h 3840 2160 else ((w : ℤ), (h : ℤ))

/-- The thumbnail dimensions `generate_image_thumbnail` produces: fixed width
320 and `int(320 * (height / width))`. -/
def generate_image_thumbnail_dims (w h : Nat) : ℤ × ℤ :=
  (320, ⌊(320 : ℚ) * ((h : ℚ) / (w : ℚ))⌋)

theorem round_aspect_le (q : ℚ) (key : ℤ → ℚ) (B : ℤ) (hB : 1 ≤ B) (hq : q ≤ (B : ℚ)) :
    round_aspect q key ≤ B := by
  have hc : ⌈q⌉ ≤ B := Int.ceil_le.mpr hq
  have hf : ⌊q⌋ ≤ B := le_trans (Int.floor_le_ceil q) hc
  unfold round_aspect
  rcases le_or_lt (key ⌊q⌋) (key ⌈q⌉) with hk | hk
  · rw [if_pos hk]; omega
  · rw [if_neg (not_le.mpr hk)]; omega

theorem round_aspect_ge_one (q : ℚ) (key : ℤ → ℚ) : 1 ≤ round_aspect q key := by
  unfold round_aspect; omega

/-- C8. The image transformer resizes — with both output dimensions fitting
within the 3840×2160 cap — iff either original dimension exceeds the cap,
and otherwise keeps the dimensions unchanged; the thumbnail has width
exactly 320 and height the integer part of `320 × (h / w)` (proportional to
the source aspect ratio). -/
theorem image_transform_spec (w h : Nat) (hw : 1 ≤ w) (hh : 1 ≤ h) :
    (process_image_dims w h ≠ ((w : ℤ), (h : ℤ)) ↔ (3840 < w ∨ 2160 < h)) ∧
    (process_image_dims w h).1 ≤ 3840 ∧ (process_image_dims w h).2 ≤ 2160 ∧
    1 ≤ (process_image_dims w h).1 ∧ 1 ≤ (process_image_dims w h).2 ∧
    (generate_image_thumbnail_dims w h).1 = 320 ∧
    ((generate_image_thumbnail_dims w h).2 : ℚ) ≤ 320 * ((h : ℚ) / (w : ℚ)) ∧
    320 * ((h : ℚ) / (w : ℚ)) < ((generate_image_thumbnail_dims w h).2 : ℚ) + 1 := by
  have hw0 : (0 : ℚ) < (w : ℚ) := by exact_mod_cast hw
  have hh0 : (0 : ℚ) < (h : ℚ) := by exact_mod_cast hh
  have hthumb1 : (generate_image_thumbnail_dims w h).1 = 320 := rfl
  have hthumb2 : ((generate_image_thumbnail_dims w h).2 : ℚ) ≤ 320 * ((h : ℚ) / (w : ℚ)) :=
    Int.floor_le _
  have hthumb3 : 320 * ((h : ℚ) / (w : ℚ)) < ((generate_image_thumbnail_dims w h).2 : ℚ) + 1 := by
    exact_mod_cast Int.lt_floor_add_one ((320 : ℚ) * ((h : ℚ) / (w : ℚ)))
  by_cases hcond : 3840 < w ∨ 2160 < h
  · have hnotin : ¬ (3840 ≥ w ∧ 2160 ≥ h) := by omega
    have hmain : process_image_dims w h = pil_thumbnail w h 3840 2160 := by
      unfold process_image_dims; rw [if_pos hcond]
    rw [hmain]
    unfold pil_thumbnail
    rw [if_neg hnotin]
    by_cases haspect : ((w : ℚ) / (h : ℚ)) ≤ ((3840 : Nat) : ℚ) / ((2160 : Nat) : ℚ)
    · -- height-bound branch: output is (round(2160·w/h), 2160)
      rw [if_pos haspect]
      have hcross : (w : ℚ) * 2160 ≤ 3840 * (h : ℚ) := by
        rw [div_le_div_iff₀ hh0 (by norm_num)] at haspect
        push_cast at haspect ⊢
        linarith
      have hhgt : 2160 < h := by
        by_contra hle
        push_neg at hle
        have hwle : w ≤ 3840 := by
          have : (w : ℚ) * 2160 ≤ 3840 * 2160 := by
            have : (h : ℚ) ≤ 2160 := by exact_mod_cast hle
            nlinarith
          have := (mul_le_mul_right (by norm_num : (0:ℚ) < 2160)).mp this
          exact_mod_cast this
        omega
      have hqle : (2160 : ℚ) * ((w : ℚ) / (h : ℚ)) ≤ ((3840 : ℤ) : ℚ) := by
        rw [mul_div_assoc']
        rw [div_le_iff₀ hh0]
        push_cast
        linarith
      have hfst : round_aspect ((2160 : ℚ) * ((w : ℚ) / (h : ℚ)))
          (fun n => |(w : ℚ) / (h : ℚ) - (n : ℚ) / ((2160 : Nat) : ℚ)|) ≤ 3840 := by
        have := round_aspect_le ((2160 : ℚ) * ((w : ℚ) / (h : ℚ)))
          (fun n => |(w : ℚ) / (h : ℚ) - (n : ℚ) / ((2160 : Nat) : ℚ)|) 3840 (by omega) (by push_cast at hqle ⊢; linarith)
        exact this
      refine ⟨?_, ?_, ?_, ?_, ?_, hthumb1, hthumb2, hthumb3⟩
      · constructor
        · intro _; exact hcond
        · intro _ heq
          have := congrArg Prod.snd heq
          simp only at this
          push_cast at this
          omega
      · simpa using hfst
      · norm_num
      · simpa using round_aspect_ge_one _ _
      · norm_num
    · -- width-bound branch: output is (3840, round(3840·h/w))
      rw [if_neg haspect]
      push_neg at haspect
      have hcross : (3840 : ℚ) * (h : ℚ) < (w : ℚ) * 2160 := by
        rw [div_lt_div_iff₀ (by norm_num) hh0] at haspect
        push_cast at haspect ⊢
        linarith
      have hwgt : 3840 < w := by
        by_contra hle
        push_neg at hle
        have hhle : h ≤ 2160 := by
          have hwq : (w : ℚ) ≤ 3840 := by exact_mod_cast hle
          have : (3840 : ℚ) * (h : ℚ) < 3840 * 2160 := by nlinarith
          have := (mul_lt_mul_left (by norm_num : (0:ℚ) < 3840)).mp this
          have : (h : ℚ) < 2160 := this
          have : h < 2160 := by exact_mod_cast this
          omega
        omega
      have hqle : ((3840 : Nat) : ℚ) / ((w : ℚ) / (h : ℚ)) ≤ ((2160 : ℤ) : ℚ) := by
        rw [div_div_eq_mul_div, div_le_iff₀ hw0]
        push_cast
        linarith
      have hsnd : round_aspect (((3840 : Nat) : ℚ) / ((w : ℚ) / (h : ℚ)))
          (fun n => if n = 0 then 0 else |(w : ℚ) / (h : ℚ) - ((3840 : Nat) : ℚ) / (n : ℚ)|)
          ≤ 2160 :=
        round_aspect_le _ _ 2160 (by omega) (by push_cast at hqle ⊢; linarith)
      refine ⟨?_, ?_, ?_, ?_, ?_, hthumb1, hthumb2, hthumb3⟩
      · constructor
        · intro _; exact hcond
        · intro _ heq
          have := congrArg Prod.fst heq
          simp only at this
          push_cast at this
          omega
      · norm_num
      · simpa using hsnd
      · norm_num
      · simpa using round_aspect_ge_one _ _
  · have hmain : process_image_dims w h = ((w : ℤ), (h : ℤ)) := by
      unfold process_image_dims; rw [if_neg hcond]
    push_neg at hcond
    rw [hmain]
    refine ⟨?_, ?_, ?_, ?_, ?_, hthumb1, hthumb2, hthumb3⟩
    · constructor
      · intro hne; exact absurd rfl hne
      · intro hgt; omega
    · push_cast; omega
    · push_cast; omega
    · push_cast; omega
    · push_cast; omega

/-- C8 witness: a 4000×3000 source (either dimension over the cap on the
width side) and the theorem's conclusions for it. -/
theorem image_transform_spec_witness :
    1 ≤ 4000 ∧ 1 ≤ 3000 ∧
    ((process_image_dims 4000 3000 ≠ ((4000 : ℤ), (3000 : ℤ)) ↔
      (3840 < 4000 ∨ 2160 < 3000)) ∧
     (process_image_dims 4000 3000).1 ≤ 3840 ∧ (process_image_dims 4000 3000).2 ≤ 2160) :=
  ⟨by omega, by omega,
    ⟨(image_transform_spec 4000 3000 (by omega) (by omega)).1,
     (image_transform_spec 4000 3000 (by omega) (by omega)).2.1,
     (image_transform_spec 4000 3000 (by omega) (by omega)).2.2.1⟩⟩

/-! ## C9: video thumbnail fallback logic (from
`MediaProcessor.generate_animated_thumbnail`) -/

/-- The decisions `generate_animated_thumbnail` makes for one video job:
the computed start position, whether the animated thumbnail was replaced by
a static fallback, whether the animated preview was attempted, and (when the
preview is static) at which start time it is taken. -/
structure AnimatedThumbDecision where
  start : ℚ
  fellBack : Bool
  previewAnimated : Bool
  previewStaticStart : Option ℚ
deriving DecidableEq, Repr

/-- Control flow of `generate_animated_thumbnail`, with the encoder run
abstracted into its observables: exit code `rcThumb`, whether the produced
thumbnail file exists, and its size in bytes. `start_time = max(5, duration *
0.1)`; on non-zero exit, or a file that is missing or not strictly larger
than 1000 bytes, a static fallback replaces the animated thumbnail and
`animated_success` is false; the animated preview is attempted only when
`animated_success` holds, otherwise a static preview is taken at
`start_time + 5`. -/
def generate_animated_thumbnail (duration : ℚ) (rcThumb : Int)
    (thumbExists : Bool) (thumbSize : Nat) : AnimatedThumbDecision :=
  let start : ℚ := max 5 (duration * (1 / 10))
  if rcThumb ≠ 0 then
    { start := start, fellBack := true, previewAnimated := false,
      previewStaticStart := some (start + 5) }
  else if thumbExists = true ∧ 1000 < thumbSize then
    { start := start, fellBack := false, previewAnimated := true,
      previewStaticStart := none }
  else
    { start := start, fellBack := true, previewAnimated := false,
      previewStaticStart := some (start + 5) }

/-- C9 counterexample. An encoder run that exits 0 and produces a file of
exactly 1000 bytes: the code falls back to a static thumbnail (its check is
`size > 1000`), although the claim's condition — non-zero exit or size
strictly below 1000 — does not hold. -/
theorem generate_animated_thumbnail_cx :
    (generate_animated_thumbnail 60 0 true 1000).fellBack = true ∧
    ¬ (((0 : Int) ≠ 0) ∨ 1000 < 1000) := by
  constructor
  · simp [generate_animated_thumbnail]
  · simp

/-- C9 amended. The start time is `max(5, duration / 10)`; the animated
thumbnail is replaced by the static fallback exactly when the encoder exits
non-zero, the file is missing, or it is at most 1000 bytes (not `< 1000`);
the animated preview is attempted iff the animated thumbnail succeeded, and
otherwise the static preview is taken at `start + 5`. -/
theorem generate_animated_thumbnail_spec (d : ℚ) (rc : Int) (ex : Bool) (sz : Nat) :
    (generate_animated_thumbnail d rc ex sz).start = max 5 (d / 10) ∧
    ((generate_animated_thumbnail d rc ex sz).fellBack = true ↔
      (rc ≠ 0 ∨ ex = false ∨ sz ≤ 1000)) ∧
    ((generate_animated_thumbnail d rc ex sz).previewAnimated = true ↔
      (generate_animated_thumbnail d rc ex sz).fellBack = false) ∧
    ((generate_animated_thumbnail d rc ex sz).fellBack = true →
      (generate_animated_thumbnail d rc ex sz).previewStaticStart
        = some ((generate_animated_thumbnail d rc ex sz).start + 5)) := by
  simp only [generate_animated_thumbnail]
  split_ifs with h1 h2
  · exact ⟨by rw [mul_one_div], by simp [h1], by simp, fun _ => rfl⟩
  · obtain ⟨hex, hsz⟩ := h2
    refine ⟨by rw [mul_one_div], ?_, by simp, ?_⟩
    · simp [h1, hex]
      omega
    · intro hcontra
      simp at hcontra
  · refine ⟨by rw [mul_one_div], ⟨fun _ => ?_, fun _ => rfl⟩, by simp, fun _ => rfl⟩
    rcases Decidable.not_and_iff_or_not.mp h2 with hx | hs
    · right; left
      cases ex
      · rfl
      · exact absurd rfl hx
    · right; right
      omega

/-! ## C6: startup ordering of `main` under cooperative asyncio scheduling -/

/-- Observable events of the startup phase. -/
inductive Ev where
  | startupScanFile
  | startupScanDone
  | workerDispatch
  | scannerTick
  | healthTick
deriving DecidableEq, Repr, BEq

/-- Atomic actions of a coroutine between suspension points: emit an
observable event, yield at an `await`, or `asyncio.create_task` a new
coroutine (which is only scheduled, not run, until the creator yields). -/
inductive Act where
  | emit (e : Ev)
  | yieldCtl
  | spawn (body : List Act)

/-- The asyncio event loop: a single thread runs the front task up to its
next yield; `create_task` appends to the ready queue; a yielding task goes
to the back. `fuel` bounds the number of steps. -/
def run : Nat → List (List Act) → List Ev
  | 0, _ => []
  | _ + 1, [] => []
  | n + 1, [] :: rest => run n rest
  | n + 1, (Act.emit e :: acts) :: rest => e :: run n (acts :: rest)
  | n + 1, (Act.yieldCtl :: acts) :: rest => run n (rest ++ [acts])
  | n + 1, (Act.spawn b :: acts) :: rest => run n (acts :: (rest ++ [b]))

/-- Task `process_queue_worker`: each round polls the queue (a dispatch) and then
`await asyncio.sleep(5)`. Two rounds modelled. -/
def workerTask : List Act :=
  [.emit .workerDispatch, .yieldCtl, .emit .workerDispatch, .yieldCtl]

/-- Task `scan_for_new_files`: on its first iteration the 60 s interval has not
elapsed (`last_scan_time` was just initialized), so it goes straight to
`await asyncio.sleep(10)`; a later iteration scans. -/
def scannerTask : List Act :=
  [.yieldCtl, .emit .scannerTick, .yieldCtl]

/-- Task `database_health_monitor`: sleeps 5 minutes before its first check. -/
def healthTask : List Act :=
  [.yieldCtl, .emit .healthTick]

/-- Body of `main` after the observer is started: `create_task(process_queue_worker)`,
`create_task(scan_for_new_files)`, `create_task(database_health_monitor)`,
then the synchronous startup scan of the imports directory (lines 1177–1195,
which contain no `await`), and only then `await asyncio.gather(...)`. -/
def mainTask : List Act :=
  [.spawn workerTask, .spawn scannerTask, .spawn healthTask,
   .emit .startupScanFile, .emit .startupScanDone, .yieldCtl]

/-- The event log of the startup. -/
def mainLog : List Ev := run 64 [mainTask]

/-- C6. Although `main` creates the queue-worker task before it runs the
startup scan, the scan contains no suspension point, so under the
cooperative event loop it completes before the worker's first dispatch
round: in the startup log, the scan-done event strictly precedes the first
worker dispatch (and both occur). -/
theorem startup_scan_before_first_dispatch :
    mainLog.contains Ev.startupScanDone = true ∧
    mainLog.contains Ev.workerDispatch = true ∧
    mainLog.findIdx (· == Ev.startupScanDone)
      < mainLog.findIdx (· == Ev.workerDispatch) := by
  decide
